import Mathlib

/-!
Verification of the RAG-little-prince ingestion and query pipeline.

The repository's own logic is embedded shallowly: LangChain documents become
a structure with a text field and an association-list metadata dictionary;
the external collaborators (PDF loader, text splitter, embedding model,
vector store client, language model) are passed in as function parameters,
since the repository only calls them. The deterministic code — chunk-id
assignment (`calculate_chunk_ids`), the dedup filter in `add_to_chroma`,
the loader and splitter guards, and the prompt/response assembly in
`query_rag` — is translated directly from `src/database.py` and
`src/query.py`.
-/

set_option maxHeartbeats 1600000

namespace RagLP

/-- A LangChain `Document` (both whole pages and chunks use this type in the
source): text plus a free-form string-keyed metadata dictionary. The dict is
modelled as an association list with unique keys, looked up by first match. -/
structure Document where
  page_content : String
  metadata : List (String × String)
deriving DecidableEq

/-- Python `metadata.get(key)`: the binding of `key`, `none` when absent. -/
def metaGet : List (String × String) → String → Option String
  | [], _ => none
  | (k, v) :: rest, key => if k = key then some v else metaGet rest key

/-- Python `metadata[key] = val`: overwrite the existing binding in place,
or append a new one at the end (Python dicts keep insertion order). -/
def metaSet : List (String × String) → String → String → List (String × String)
  | [], key, val => [(key, val)]
  | (k, v) :: rest, key, val =>
    if k = key then (key, val) :: rest else (k, v) :: metaSet rest key val

/-- How a Python f-string renders `metadata.get(k)`: the literal `None` for a
missing key, the stored string otherwise. -/
def pyStr : Option String → String
  | none => "None"
  | some s => s

/-- `f"{source}:{page}"` for a chunk, from `calculate_chunk_ids`
(src/database.py lines 129-131). -/
def pageIdOf (c : Document) : String :=
  pyStr (metaGet c.metadata "source") ++ ":" ++ pyStr (metaGet c.metadata "page")

/-- `chunk.metadata["id"] = chunk_id` (src/database.py line 139). -/
def withId (c : Document) (cid : String) : Document :=
  { c with metadata := metaSet c.metadata "id" cid }

/-- The loop body of `calculate_chunk_ids` (src/database.py lines 128-140),
with the two loop-carried variables `last_page_id` and `current_chunk_index`
made explicit accumulator arguments. -/
def calcIdsAux : Option String → Nat → List Document → List Document
  | _, _, [] => []
  | last, idx, c :: rest =>
    let pid := pageIdOf c
    let newIdx := if some pid = last then idx + 1 else 0
    withId c (pid ++ ":" ++ Nat.repr newIdx) :: calcIdsAux (some pid) newIdx rest

/-- `calculate_chunk_ids` (src/database.py lines 113-142): assign to every
chunk the id `f"{source}:{page}:{index}"`, where the index increments while
the page id repeats and resets to 0 when it changes.
`last_page_id = None` and `current_chunk_index = 0` initially. -/
def calculate_chunk_ids (chunks : List Document) : List Document :=
  calcIdsAux none 0 chunks

/-- Python `chunk.metadata["id"]` (a `KeyError` on a chunk without an id is
modelled as `""`; every chunk that reaches this lookup in the source has
been through `calculate_chunk_ids`, which always writes the key — proved in
`calculate_chunk_ids_id_present` below). -/
def chunkIdOf (c : Document) : String :=
  (metaGet c.metadata "id").getD ""

/-- The observable state of the Chroma store: stored records keyed by
chunk id. `db.get(include=[])` returns exactly the key list. -/
structure ChromaDB where
  records : List (String × Document)
deriving DecidableEq

/-- `set(existing_items["ids"])` (src/database.py lines 97-98); membership
in the Python set equals membership in this list. -/
def existingIds (db : ChromaDB) : List String :=
  db.records.map Prod.fst

/-- What one call to `add_to_chroma` observably does: the resulting store,
the chunks submitted to `db.add_documents`, and whether `db.persist()` ran. -/
structure AddOutcome where
  db : ChromaDB
  upserted : List Document
  persist_called : Bool
deriving DecidableEq

/-- `add_to_chroma` (src/database.py lines 85-111): tag the chunks with ids,
read the set of stored ids, keep only the chunks whose id is not stored, and
upsert + persist exactly when that list is non-empty. -/
def add_to_chroma (db : ChromaDB) (chunks : List Document) : AddOutcome :=
  let chunks_with_ids := calculate_chunk_ids chunks
  let existing_ids := existingIds db
  let new_chunks := chunks_with_ids.filter (fun c => decide (chunkIdOf c ∉ existing_ids))
  if new_chunks.isEmpty then
    { db := db, upserted := [], persist_called := false }
  else
    { db := { records := db.records ++ new_chunks.map (fun c => (chunkIdOf c, c)) },
      upserted := new_chunks,
      persist_called := true }

/-- The two Python exception classes the repository raises itself
(src/database.py lines 50 and 53 and 75). The spec's error taxonomy names
them `NotFoundError` (= `FileNotFoundError`) and `EmptyInputError`
(= `ValueError`). -/
inductive PyError where
  | FileNotFoundError (msg : String)
  | ValueError (msg : String)
deriving DecidableEq

/-- `load_documents_from_directory` (src/database.py lines 35-57).
`listdir` models the filesystem: `none` when `os.path.exists` is false,
otherwise the directory listing; `loadPdfDir` models
`PyPDFDirectoryLoader(directory_path).load()`, the external PDF loader. -/
def load_documents_from_directory (listdir : String → Option (List String))
    (loadPdfDir : String → List Document) (directory_path : String) :
    Except PyError (List Document) :=
  match listdir directory_path with
  | none => .error (.FileNotFoundError ("Directory " ++ directory_path ++ " does not exist"))
  | some entries =>
    if entries.isEmpty then
      .error (.ValueError ("Directory " ++ directory_path ++ " is empty"))
    else
      .ok (loadPdfDir directory_path)

/-- Modelled from the spec: "ingestible files" are the PDF files the
external `PyPDFDirectoryLoader` globs from the directory; nothing in src/
defines the notion, so a file is ingestible exactly when its name ends in
`.pdf` (suffix test on the character list). -/
def isIngestible (name : String) : Bool :=
  List.isSuffixOf ".pdf".data name.data

/-- `split_documents` (src/database.py lines 59-83). `splitter` models the
external `RecursiveCharacterTextSplitter(chunk_size, chunk_overlap)
.split_documents`; the repository's own code is only the empty-input guard. -/
def split_documents (splitter : Nat → Nat → List Document → List Document)
    (documents : List Document) (chunk_size chunk_overlap : Nat) :
    Except PyError (List Document) :=
  if documents.isEmpty then .error (.ValueError "No documents to split")
  else .ok (splitter chunk_size chunk_overlap documents)

/-- `PROMPT_TEMPLATE` (src/query.py lines 165-173), verbatim. -/
def PROMPT_TEMPLATE : String :=
  "\nAnswer the question based only on the following context:\n\n{context}\n\n---\n\nAnswer the question based on the above context: {question}\n"

/-- `prompt_template.format(context=..., question=...)` (src/query.py
line 215): single-pass substitution into the two slots of the fixed
template (the template is a constant, so the substitution is the
concatenation of its literal segments with the two arguments; a slot
marker occurring inside an argument is not re-substituted).
`PROMPT_TEMPLATE_segments` below proves the segments are the template's. -/
def formatPrompt (context question : String) : String :=
  "\nAnswer the question based only on the following context:\n\n" ++ context ++
    "\n\n---\n\nAnswer the question based on the above context: " ++ question ++ "\n"

/-- A single-quote character, for Python `repr` of strings. -/
def sq : String :=
  String.singleton (Char.ofNat 39)

/-- Python `repr` of one element of the sources list: `None` for a chunk
without an id, the single-quoted id otherwise. -/
def pyRepr : Option String → String
  | none => "None"
  | some s => sq ++ s ++ sq

/-- Python `str` of the sources list, as `print` renders it. -/
def pyListRepr (l : List (Option String)) : String :=
  "[" ++ String.intercalate ", " (l.map pyRepr) ++ "]"

/-- What one call to `query_rag` observably does: the line it prints and
the text it returns. -/
structure QueryOutcome where
  printed : String
  response : String
deriving DecidableEq

/-- `query_rag` (src/query.py lines 186-226). `search` models
`db.similarity_search_with_score(query_text, k=5)` (ranked results with
scores of an abstract type, discarded by the code); `generate` models
`Ollama(model="mistral").invoke`. -/
def query_rag {α : Type} (generate : String → String)
    (search : String → List (Document × α)) (query_text : String) : QueryOutcome :=
  let results := search query_text
  let context_text := String.intercalate "\n\n---\n\n" (results.map (fun r => r.1.page_content))
  let prompt := formatPrompt context_text query_text
  let response_text := generate prompt
  let sources := results.map (fun r => metaGet r.1.metadata "id")
  { printed := "Response: " ++ response_text ++ "\n" ++ "Sources: " ++ pyListRepr sources,
    response := response_text }

/-- The page keys of a chunk batch, in order. -/
def pageKeys (chunks : List Document) : List String :=
  chunks.map pageIdOf

/-- `f"{page_key}:{index}"`. -/
def fmtId (k : String) (i : Nat) : String :=
  k ++ ":" ++ Nat.repr i

/-- Follows the spec's words (§4.3): the sequence indices the single
left-to-right pass assigns to a page-key sequence — maintain `last_page_key`
and `current_index`; increment the index when the key repeats, reset it to 0
when it changes. -/
def specIndicesAux : Option String → Nat → List String → List Nat
  | _, _, [] => []
  | last, idx, k :: rest =>
    let i := if some k = last then idx + 1 else 0
    i :: specIndicesAux (some k) i rest

/-- Follows the spec's words (§4.3): indices for a whole batch, starting
from no previous page key. -/
def specIndices (ks : List String) : List Nat :=
  specIndicesAux none 0 ks

/-- A page-key sequence is grouped when equal keys are contiguous: the
sequence is a concatenation of non-empty constant blocks whose key does not
reappear later. The spec (§4.2, §4.3) asserts the splitter's output is
grouped this way — documents in order, each page's chunks contiguous. -/
inductive Grouped : List String → Prop
  | nil : Grouped []
  | block (k : String) (n : Nat) (rest : List String) :
      k ∉ rest → Grouped rest → Grouped (List.replicate (n + 1) k ++ rest)

-- Sanity checks of the embedding against hand-run Python behaviour.

example :
    calculate_chunk_ids
      [⟨"a", [("source", "books/doc.pdf"), ("page", "0")]⟩,
       ⟨"b", [("source", "books/doc.pdf"), ("page", "0")]⟩,
       ⟨"c", [("source", "books/doc.pdf"), ("page", "1")]⟩] =
      [⟨"a", [("source", "books/doc.pdf"), ("page", "0"), ("id", "books/doc.pdf:0:0")]⟩,
       ⟨"b", [("source", "books/doc.pdf"), ("page", "0"), ("id", "books/doc.pdf:0:1")]⟩,
       ⟨"c", [("source", "books/doc.pdf"), ("page", "1"), ("id", "books/doc.pdf:1:0")]⟩] := by
  decide

example : pageIdOf ⟨"a", []⟩ = "None:None" := by decide

example :
    (calculate_chunk_ids
      [⟨"a", [("source", "x"), ("page", "0")]⟩,
       ⟨"b", [("source", "y"), ("page", "0")]⟩,
       ⟨"c", [("source", "x"), ("page", "0")]⟩]).map chunkIdOf =
      ["x:0:0", "y:0:0", "x:0:0"] := by
  decide

example :
    pyListRepr [some "books/doc.pdf:0:0", none] =
      "[" ++ sq ++ "books/doc.pdf:0:0" ++ sq ++ ", None]" := by
  decide

/-! ### Metadata dictionary lemmas -/

theorem metaGet_metaSet_self (m : List (String × String)) (k v : String) :
    metaGet (metaSet m k v) k = some v := by
  induction m with
  | nil => simp [metaSet, metaGet]
  | cons p rest ih =>
    obtain ⟨k', v'⟩ := p
    by_cases h : k' = k
    · simp [metaSet, metaGet, h]
    · simp [metaSet, metaGet, h, ih]

theorem metaGet_metaSet_ne (m : List (String × String)) (k v key : String)
    (h : key ≠ k) : metaGet (metaSet m k v) key = metaGet m key := by
  induction m with
  | nil => simp [metaSet, metaGet, Ne.symm h]
  | cons p rest ih =>
    obtain ⟨k', v'⟩ := p
    by_cases hk : k' = k
    · subst hk
      simp [metaSet, metaGet, Ne.symm h]
    · by_cases hkey : k' = key
      · subst hkey
        simp [metaSet, metaGet, hk, h]
      · simp [metaSet, metaGet, hk, hkey, ih]

theorem metaGet_withId (c : Document) (cid key : String) (h : key ≠ "id") :
    metaGet (withId c cid).metadata key = metaGet c.metadata key := by
  simp [withId, metaGet_metaSet_ne _ _ _ _ h]

theorem pageContent_withId (c : Document) (cid : String) :
    (withId c cid).page_content = c.page_content := rfl

theorem pageIdOf_withId (c : Document) (cid : String) :
    pageIdOf (withId c cid) = pageIdOf c := by
  simp [pageIdOf, metaGet_withId c cid "source" (by decide),
    metaGet_withId c cid "page" (by decide)]

theorem chunkIdOf_withId (c : Document) (cid : String) :
    chunkIdOf (withId c cid) = cid := by
  simp [chunkIdOf, withId, metaGet_metaSet_self]

/-! ### Characterization of `calculate_chunk_ids` -/

theorem specIndicesAux_length (last : Option String) (idx : Nat) (ks : List String) :
    (specIndicesAux last idx ks).length = ks.length := by
  induction ks generalizing last idx with
  | nil => rfl
  | cons k rest ih => simp [specIndicesAux, ih]

theorem specIndices_length (ks : List String) : (specIndices ks).length = ks.length :=
  specIndicesAux_length none 0 ks

theorem calcIdsAux_eq_zipWith (last : Option String) (idx : Nat) (chunks : List Document) :
    calcIdsAux last idx chunks =
      List.zipWith (fun c i => withId c (fmtId (pageIdOf c) i)) chunks
        (specIndicesAux last idx (pageKeys chunks)) := by
  induction chunks generalizing last idx with
  | nil => rfl
  | cons c rest ih =>
    simp only [calcIdsAux, pageKeys, List.map_cons, specIndicesAux, List.zipWith_cons_cons]
    rw [show pageKeys rest = rest.map pageIdOf from rfl] at ih
    rw [ih, fmtId]

theorem calculate_chunk_ids_eq_zipWith (chunks : List Document) :
    calculate_chunk_ids chunks =
      List.zipWith (fun c i => withId c (fmtId (pageIdOf c) i)) chunks
        (specIndices (pageKeys chunks)) :=
  calcIdsAux_eq_zipWith none 0 chunks

theorem calculate_chunk_ids_map_chunkIdOf (chunks : List Document) :
    (calculate_chunk_ids chunks).map chunkIdOf =
      List.zipWith fmtId (pageKeys chunks) (specIndices (pageKeys chunks)) := by
  rw [calculate_chunk_ids_eq_zipWith, List.map_zipWith]
  have : (fun (c : Document) (i : Nat) => chunkIdOf (withId c (fmtId (pageIdOf c) i))) =
      fun c i => fmtId (pageIdOf c) i := by
    funext c i
    exact chunkIdOf_withId _ _
  rw [this]
  rw [show (pageKeys chunks) = chunks.map pageIdOf from rfl]
  rw [List.zipWith_map_left]

theorem exists_of_mem_zipWith {α β γ : Type} (f : α → β → γ) :
    ∀ (as : List α) (bs : List β) (x : γ), x ∈ List.zipWith f as bs →
      ∃ a b, a ∈ as ∧ b ∈ bs ∧ x = f a b
  | a :: as, b :: bs, x, hx => by
    rcases List.mem_cons.mp hx with h | h
    · exact ⟨a, b, List.mem_cons_self _ _, List.mem_cons_self _ _, h⟩
    · obtain ⟨a', b', ha, hb, rfl⟩ := exists_of_mem_zipWith f as bs x h
      exact ⟨a', b', List.mem_cons_of_mem _ ha, List.mem_cons_of_mem _ hb, rfl⟩
  | [], _, x, hx => by simp at hx
  | _ :: _, [], x, hx => by simp at hx

theorem calculate_chunk_ids_id_present (chunks : List Document) :
    ∀ c ∈ calculate_chunk_ids chunks, (metaGet c.metadata "id").isSome := by
  intro c hc
  rw [calculate_chunk_ids_eq_zipWith] at hc
  obtain ⟨a, b, _, _, rfl⟩ := exists_of_mem_zipWith _ _ _ _ hc
  simp [withId, metaGet_metaSet_self]

/-! ### Decimal rendering: `Nat.repr` is injective and contains no colon.
Chunk ids are colon-separated strings whose last component is a decimal
index, so distinguishing ids needs these two facts about `Nat.repr`. -/

theorem toDigitsCore_append (fuel n : Nat) (ds : List Char) :
    Nat.toDigitsCore 10 fuel n ds = Nat.toDigitsCore 10 fuel n [] ++ ds := by
  induction fuel generalizing n ds with
  | zero => rfl
  | succ f ih =>
    simp only [Nat.toDigitsCore]
    by_cases h : n / 10 = 0
    · simp [h]
    · rw [if_neg h, if_neg h, ih (n / 10) (Nat.digitChar (n % 10) :: ds),
        ih (n / 10) [Nat.digitChar (n % 10)]]
      simp

theorem toDigitsCore_fuel (n : Nat) : ∀ f1 f2, n < f1 → n < f2 →
    Nat.toDigitsCore 10 f1 n [] = Nat.toDigitsCore 10 f2 n [] := by
  induction n using Nat.strong_induction_on with
  | _ n ih =>
    intro f1 f2 h1 h2
    match f1, f2 with
    | f1 + 1, f2 + 1 =>
      simp only [Nat.toDigitsCore]
      by_cases h : n / 10 = 0
      · simp [h]
      · have hn : 0 < n := by
          rcases Nat.eq_zero_or_pos n with h0 | h0
          · subst h0; simp at h
          · exact h0
        have hlt : n / 10 < n := Nat.div_lt_self hn (by norm_num)
        rw [if_neg h, if_neg h, toDigitsCore_append f1, toDigitsCore_append f2]
        congr 1
        exact ih (n / 10) hlt f1 f2 (lt_of_lt_of_le hlt (Nat.lt_succ_iff.mp h1))
          (lt_of_lt_of_le hlt (Nat.lt_succ_iff.mp h2))

theorem toDigits_lt10 (n : Nat) (h : n < 10) : Nat.toDigits 10 n = [Nat.digitChar n] := by
  have h0 : n / 10 = 0 := Nat.div_eq_of_lt h
  simp [Nat.toDigits, Nat.toDigitsCore, h0, Nat.mod_eq_of_lt h]

theorem toDigits_ge10 (n : Nat) (h : 10 ≤ n) :
    Nat.toDigits 10 n = Nat.toDigits 10 (n / 10) ++ [Nat.digitChar (n % 10)] := by
  have h0 : n / 10 ≠ 0 := by
    have : 1 ≤ n / 10 := (Nat.le_div_iff_mul_le (by norm_num)).mpr (by omega)
    omega
  have hlt : n / 10 < n := Nat.div_lt_self (by omega) (by norm_num)
  simp only [Nat.toDigits, Nat.toDigitsCore]
  rw [if_neg h0, toDigitsCore_append]
  congr 1
  exact toDigitsCore_fuel (n / 10) n (n / 10 + 1) hlt (Nat.lt_succ_self _)

/-- The numeric value of a decimal digit character. -/
def decDigit (c : Char) : Nat := c.toNat - 48

/-- Fold a digit string onto an accumulator, most significant digit first. -/
def decodeFrom (a : Nat) (l : List Char) : Nat :=
  l.foldl (fun x c => 10 * x + decDigit c) a

theorem decDigit_digitChar (n : Nat) (h : n < 10) : decDigit (Nat.digitChar n) = n := by
  interval_cases n <;> decide

theorem decodeFrom_toDigits (n : Nat) : ∀ a : Nat,
    decodeFrom a (Nat.toDigits 10 n) = a * 10 ^ (Nat.toDigits 10 n).length + n := by
  induction n using Nat.strong_induction_on with
  | _ n ih =>
    intro a
    by_cases h : n < 10
    · rw [toDigits_lt10 n h]
      simp only [decodeFrom, List.foldl_cons, List.foldl_nil, List.length_cons,
        List.length_nil, decDigit_digitChar n h, pow_one, Nat.zero_add, pow_zero]
      ring
    · push_neg at h
      have hlt : n / 10 < n := Nat.div_lt_self (by omega) (by norm_num)
      rw [toDigits_ge10 n h]
      simp only [decodeFrom, List.foldl_append, List.foldl_cons, List.foldl_nil,
        List.length_append, List.length_cons, List.length_nil]
      rw [show List.foldl (fun x c => 10 * x + decDigit c) a (Nat.toDigits 10 (n / 10)) =
          decodeFrom a (Nat.toDigits 10 (n / 10)) from rfl]
      rw [ih (n / 10) hlt a, decDigit_digitChar _ (Nat.mod_lt _ (by norm_num))]
      have hmod : 10 * (n / 10) + n % 10 = n := Nat.div_add_mod n 10
      calc 10 * (a * 10 ^ (Nat.toDigits 10 (n / 10)).length + n / 10) + n % 10
          = a * (10 ^ (Nat.toDigits 10 (n / 10)).length * 10) +
              (10 * (n / 10) + n % 10) := by ring
        _ = a * 10 ^ ((Nat.toDigits 10 (n / 10)).length + (0 + 1)) + n := by
              rw [hmod, pow_succ]

theorem toDigits_injective {m n : Nat}
    (h : Nat.toDigits 10 m = Nat.toDigits 10 n) : m = n := by
  have h1 := decodeFrom_toDigits m 0
  have h2 := decodeFrom_toDigits n 0
  rw [h] at h1
  simp only [Nat.zero_mul, Nat.zero_add] at h1 h2
  exact h1.symm.trans h2

theorem repr_data (n : Nat) : (Nat.repr n).data = Nat.toDigits 10 n := rfl

theorem digitChar_isDigit (n : Nat) (h : n < 10) : (Nat.digitChar n).isDigit = true := by
  interval_cases n <;> decide

theorem toDigits_all_digits (n : Nat) : ∀ c ∈ Nat.toDigits 10 n, c.isDigit = true := by
  induction n using Nat.strong_induction_on with
  | _ n ih =>
    by_cases h : n < 10
    · rw [toDigits_lt10 n h]
      intro c hc
      simp only [List.mem_singleton] at hc
      subst hc
      exact digitChar_isDigit n h
    · push_neg at h
      have hlt : n / 10 < n := Nat.div_lt_self (by omega) (by norm_num)
      rw [toDigits_ge10 n h]
      intro c hc
      rcases List.mem_append.mp hc with hc | hc
      · exact ih (n / 10) hlt c hc
      · simp only [List.mem_singleton] at hc
        subst hc
        exact digitChar_isDigit _ (Nat.mod_lt _ (by norm_num))

theorem colon_not_mem_toDigits (n : Nat) : ':' ∉ Nat.toDigits 10 n := by
  intro hmem
  have h := toDigits_all_digits n ':' hmem
  exact absurd h (by decide)

theorem append_colon_inj {l1 l2 d1 d2 : List Char}
    (h1 : ':' ∉ d1) (h2 : ':' ∉ d2)
    (h : l1 ++ ':' :: d1 = l2 ++ ':' :: d2) : l1 = l2 ∧ d1 = d2 := by
  induction l1 generalizing l2 with
  | nil =>
    cases l2 with
    | nil => simpa using h
    | cons c l2' =>
      simp only [List.nil_append, List.cons_append, List.cons.injEq] at h
      obtain ⟨rfl, h⟩ := h
      exact absurd (h ▸ List.mem_append_right l2' (List.mem_cons_self _ _)) h1
  | cons c l1' ih =>
    cases l2 with
    | nil =>
      simp only [List.cons_append, List.nil_append, List.cons.injEq] at h
      obtain ⟨rfl, h⟩ := h
      exact absurd (h ▸ List.mem_append_right l1' (List.mem_cons_self _ _)) h2
    | cons c' l2' =>
      simp only [List.cons_append, List.cons.injEq] at h
      obtain ⟨rfl, h⟩ := h
      obtain ⟨ha, hb⟩ := ih h
      exact ⟨by rw [ha], hb⟩

theorem fmtId_inj {k1 k2 : String} {i1 i2 : Nat}
    (h : fmtId k1 i1 = fmtId k2 i2) : k1 = k2 ∧ i1 = i2 := by
  have hdata := congrArg String.data h
  simp only [fmtId, String.data_append] at hdata
  have h' : k1.data ++ ':' :: Nat.toDigits 10 i1 = k2.data ++ ':' :: Nat.toDigits 10 i2 := by
    rw [repr_data, repr_data] at hdata
    simpa [List.append_assoc] using hdata
  obtain ⟨hk, hd⟩ := append_colon_inj (colon_not_mem_toDigits i1) (colon_not_mem_toDigits i2) h'
  exact ⟨String.ext hk, toDigits_injective hd⟩

/-! ### Index assignment on grouped page-key sequences -/

theorem specIndicesAux_replicate (k : String) :
    ∀ (m : Nat) (j : Nat) (rest : List String),
      specIndicesAux (some k) j (List.replicate m k ++ rest) =
        List.range' (j + 1) m ++ specIndicesAux (some k) (j + m) rest := by
  intro m
  induction m with
  | zero => intro j rest; simp
  | succ m ih =>
    intro j rest
    rw [List.replicate_succ, List.cons_append]
    simp only [specIndicesAux, eq_self_iff_true, if_true]
    rw [ih (j + 1) rest, List.range'_succ]
    simp only [List.cons_append, List.cons.injEq, true_and]
    congr 2
    omega

theorem specIndicesAux_restart (last : Option String) (idx : Nat) :
    ∀ ks : List String, (∀ k, ks.head? = some k → some k ≠ last) →
      specIndicesAux last idx ks = specIndices ks
  | [], _ => rfl
  | k :: ks, h => by
    have hne : some k ≠ last := h k rfl
    simp [specIndices, specIndicesAux, hne]

theorem specIndices_block (k : String) (n : Nat) (rest : List String) (hk : k ∉ rest) :
    specIndices (List.replicate (n + 1) k ++ rest) =
      List.range (n + 1) ++ specIndices rest := by
  rw [List.replicate_succ, List.cons_append]
  show specIndicesAux none 0 _ = _
  simp only [specIndicesAux, show (some k = none) = False by simp, if_false]
  rw [specIndicesAux_replicate k n 0 rest]
  simp only [Nat.zero_add]
  rw [specIndicesAux_restart (some k) n rest (by
    intro k' hk' he
    have : k' ∈ rest := by
      cases rest with
      | nil => simp at hk'
      | cons r rs =>
        simp only [List.head?_cons, Option.some.injEq] at hk'
        subst hk'
        exact List.mem_cons_self _ _
    exact hk (by
      have hkk : k' = k := by
        have := Option.some.injEq k' k ▸ he
        simpa using he
      exact hkk ▸ this))]
  rw [List.range_eq_range', List.range'_succ]
  simp

theorem zipWith_replicate_fmtId (k : String) :
    ∀ l : List Nat, List.zipWith fmtId (List.replicate l.length k) l = l.map (fmtId k)
  | [] => rfl
  | i :: l => by
    simp only [List.length_cons, List.replicate_succ, List.zipWith_cons_cons, List.map_cons]
    rw [zipWith_replicate_fmtId k l]

theorem zip_replicate_left (k : String) :
    ∀ l : List Nat, (List.replicate l.length k).zip l = l.map (fun i => (k, i))
  | [] => rfl
  | i :: l => by
    simp only [List.length_cons, List.replicate_succ, List.zip_cons_cons, List.map_cons]
    rw [zip_replicate_left k l]

theorem ids_nodup_of_grouped : ∀ ks : List String, Grouped ks →
    (List.zipWith fmtId ks (specIndices ks)).Nodup := by
  intro ks hg
  induction hg with
  | nil => simp [specIndices, specIndicesAux]
  | block k n rest hk hrest ih =>
    rw [specIndices_block k n rest hk,
      List.zipWith_append fmtId _ _ _ _ (by simp),
      show List.zipWith fmtId (List.replicate (n + 1) k) (List.range (n + 1)) =
          (List.range (n + 1)).map (fmtId k) by
        have := zipWith_replicate_fmtId k (List.range (n + 1))
        simpa using this]
    apply List.Nodup.append
    · have hinj : Function.Injective (fmtId k) := fun i j hij => (fmtId_inj hij).2
      exact List.Nodup.map hinj (List.nodup_range _)
    · exact ih
    · intro x hx hx'
      obtain ⟨i, _, rfl⟩ := List.mem_map.mp hx
      obtain ⟨k', j, hk', _, hfmt⟩ := exists_of_mem_zipWith fmtId rest (specIndices rest) _ hx'
      exact hk ((fmtId_inj hfmt).1 ▸ hk')

theorem zip_ids_filter_of_grouped : ∀ ks : List String, Grouped ks → ∀ k : String,
    ((ks.zip (specIndices ks)).filter (fun p => p.1 == k)).map (fun p => fmtId p.1 p.2) =
      (List.range (ks.count k)).map (fmtId k) := by
  intro ks hg
  induction hg with
  | nil => intro k; simp [specIndices, specIndicesAux]
  | block k0 n rest hk0 hrest ih =>
    intro k
    rw [specIndices_block k0 n rest hk0,
      List.zip_append (by simp),
      show (List.replicate (n + 1) k0).zip (List.range (n + 1)) =
          (List.range (n + 1)).map (fun i => (k0, i)) by
        have := zip_replicate_left k0 (List.range (n + 1))
        simpa using this,
      List.filter_append, List.map_append, List.count_append]
    by_cases hkk : k0 = k
    · subst hkk
      rw [show List.filter (fun p => p.1 == k0) ((List.range (n + 1)).map (fun i => (k0, i))) =
            (List.range (n + 1)).map (fun i => (k0, i)) from
          List.filter_eq_self.mpr (by
            intro p hp
            obtain ⟨i, _, rfl⟩ := List.mem_map.mp hp
            simp)]
      rw [show List.filter (fun p => p.1 == k0) (rest.zip (specIndices rest)) = [] from
          List.filter_eq_nil_iff.mpr (by
            intro p hp hpk
            have hmem := (List.of_mem_zip hp).1
            have : p.1 = k0 := by simpa using hpk
            exact hk0 (this ▸ hmem))]
      simp only [List.map_nil, List.append_nil, List.count_replicate_self,
        List.count_eq_zero_of_not_mem hk0, Nat.add_zero]
      rw [List.map_map]
      rfl
    · rw [show List.filter (fun p => p.1 == k) ((List.range (n + 1)).map (fun i => (k0, i))) = [] from
          List.filter_eq_nil_iff.mpr (by
            intro p hp hpk
            obtain ⟨i, _, rfl⟩ := List.mem_map.mp hp
            exact hkk (by simpa using hpk))]
      rw [show (List.replicate (n + 1) k0).count k = 0 from by
        rw [List.count_replicate]
        simp [hkk]]
      simpa using ih k

/-! ### `add_to_chroma` helper lemmas -/

theorem add_to_chroma_eq (db : ChromaDB) (chunks : List Document) :
    add_to_chroma db chunks =
      if ((calculate_chunk_ids chunks).filter
          (fun c => decide (chunkIdOf c ∉ existingIds db))).isEmpty then
        ⟨db, [], false⟩
      else
        ⟨⟨db.records ++ ((calculate_chunk_ids chunks).filter
            (fun c => decide (chunkIdOf c ∉ existingIds db))).map (fun c => (chunkIdOf c, c))⟩,
          (calculate_chunk_ids chunks).filter (fun c => decide (chunkIdOf c ∉ existingIds db)),
          true⟩ := rfl

theorem add_to_chroma_upserted (db : ChromaDB) (chunks : List Document) :
    (add_to_chroma db chunks).upserted =
      (calculate_chunk_ids chunks).filter (fun c => decide (chunkIdOf c ∉ existingIds db)) := by
  rw [add_to_chroma_eq]
  by_cases h : ((calculate_chunk_ids chunks).filter
      (fun c => decide (chunkIdOf c ∉ existingIds db))).isEmpty = true
  · rw [if_pos h]
    exact (List.isEmpty_iff.mp h).symm
  · rw [if_neg h]

theorem add_to_chroma_persist (db : ChromaDB) (chunks : List Document) :
    (add_to_chroma db chunks).persist_called =
      !((calculate_chunk_ids chunks).filter
        (fun c => decide (chunkIdOf c ∉ existingIds db))).isEmpty := by
  rw [add_to_chroma_eq]
  by_cases h : ((calculate_chunk_ids chunks).filter
      (fun c => decide (chunkIdOf c ∉ existingIds db))).isEmpty = true
  · rw [if_pos h, h]
    rfl
  · rw [if_neg h]
    rw [Bool.not_eq_true] at h
    rw [h]
    rfl

theorem add_to_chroma_noop_of_all_present (db : ChromaDB) (chunks : List Document)
    (h : ∀ c ∈ calculate_chunk_ids chunks, chunkIdOf c ∈ existingIds db) :
    add_to_chroma db chunks = ⟨db, [], false⟩ := by
  have hfil : (calculate_chunk_ids chunks).filter
      (fun c => decide (chunkIdOf c ∉ existingIds db)) = [] := by
    rw [List.filter_eq_nil_iff]
    intro c hc
    simp only [decide_eq_true_eq, Decidable.not_not]
    exact h c hc
  rw [add_to_chroma_eq, hfil]
  simp

theorem add_to_chroma_db_records (db : ChromaDB) (chunks : List Document) :
    (add_to_chroma db chunks).db.records =
      db.records ++ ((calculate_chunk_ids chunks).filter
        (fun c => decide (chunkIdOf c ∉ existingIds db))).map (fun c => (chunkIdOf c, c)) := by
  rw [add_to_chroma_eq]
  by_cases h : ((calculate_chunk_ids chunks).filter
      (fun c => decide (chunkIdOf c ∉ existingIds db))).isEmpty = true
  · rw [if_pos h, List.isEmpty_iff.mp h]
    simp
  · rw [if_neg h]

theorem existingIds_add_to_chroma (db : ChromaDB) (chunks : List Document) :
    ∀ c ∈ calculate_chunk_ids chunks,
      chunkIdOf c ∈ existingIds (add_to_chroma db chunks).db := by
  intro c hc
  rw [existingIds, add_to_chroma_db_records, List.map_append]
  by_cases hid : chunkIdOf c ∈ existingIds db
  · exact List.mem_append_left _ (by simpa [existingIds] using hid)
  · apply List.mem_append_right
    have hcfil : c ∈ (calculate_chunk_ids chunks).filter
        (fun c => decide (chunkIdOf c ∉ existingIds db)) :=
      List.mem_filter.mpr ⟨hc, by simpa using hid⟩
    have hmem : (chunkIdOf c, c) ∈ ((calculate_chunk_ids chunks).filter
        (fun c => decide (chunkIdOf c ∉ existingIds db))).map (fun c => (chunkIdOf c, c)) :=
      List.mem_map_of_mem _ hcfil
    exact (List.mem_map_of_mem Prod.fst hmem : _)

/-! ### Positional recurrence of the index assignment -/

theorem specIndicesAux_getD_succ :
    ∀ (ks : List String) (last : Option String) (idx i : Nat), i + 1 < ks.length →
      (specIndicesAux last idx ks).getD (i + 1) 0 =
        if ks.getD (i + 1) "" = ks.getD i "" then
          (specIndicesAux last idx ks).getD i 0 + 1
        else 0
  | [], _, _, _, h => by simp at h
  | k :: ks, last, idx, 0, h => by
    match ks, h with
    | k2 :: ks2, _ =>
      simp only [specIndicesAux, List.getD_cons_succ, List.getD_cons_zero]
      by_cases he : k2 = k
      · simp [he]
      · simp [he, show ¬(some k2 = some k) by simpa using he]
  | k :: ks, last, idx, i + 1, h => by
    simp only [specIndicesAux, List.getD_cons_succ]
    exact specIndicesAux_getD_succ ks (some k)
      (if some k = last then idx + 1 else 0) i (by simpa using h)

theorem specIndices_getD_zero (ks : List String) (h : 0 < ks.length) :
    (specIndices ks).getD 0 0 = 0 := by
  match ks, h with
  | k :: ks, _ =>
    simp [specIndices, specIndicesAux]

/-! ### Pointwise view of `zipWith` (for the frame property) -/

theorem zipWith_getD {α β γ : Type} (f : α → β → γ) (d1 : α) (d2 : β) (d3 : γ) :
    ∀ (as : List α) (bs : List β) (i : Nat), i < as.length → as.length = bs.length →
      (List.zipWith f as bs).getD i d3 = f (as.getD i d1) (bs.getD i d2)
  | [], _, _, hi, _ => by simp at hi
  | a :: as, [], _, _, hl => by simp at hl
  | a :: as, b :: bs, 0, _, _ => by simp
  | a :: as, b :: bs, i + 1, hi, hl => by
    simp only [List.zipWith_cons_cons, List.getD_cons_succ]
    exact zipWith_getD f d1 d2 d3 as bs i (by simpa using hi) (by simpa using hl)

/-! ### Per-page filtering, lifted from key level to chunk level -/

theorem filter_map_zipWith_lift (k : String) :
    ∀ (as : List Document) (bs : List Nat), as.length = bs.length →
      (((List.zipWith (fun c i => withId c (fmtId (pageIdOf c) i)) as bs).filter
          (fun c => pageIdOf c == k)).map chunkIdOf) =
        (((as.map pageIdOf).zip bs).filter (fun p => p.1 == k)).map
          (fun p => fmtId p.1 p.2)
  | [], [], _ => rfl
  | [], b :: bs, h => by simp at h
  | a :: as, [], h => by simp at h
  | a :: as, b :: bs, h => by
    simp only [List.zipWith_cons_cons, List.map_cons, List.zip_cons_cons, List.filter]
    rw [show pageIdOf (withId a (fmtId (pageIdOf a) b)) = pageIdOf a from pageIdOf_withId a _]
    by_cases hk : pageIdOf a == k
    · simp only [hk, List.map_cons]
      rw [chunkIdOf_withId a _]
      rw [filter_map_zipWith_lift k as bs (by simpa using h)]
      rfl
    · simp only [hk]
      rw [filter_map_zipWith_lift k as bs (by simpa using h)]
      rfl

/-! ### The prompt template's literal segments -/

theorem PROMPT_TEMPLATE_segments :
    PROMPT_TEMPLATE =
      "\nAnswer the question based only on the following context:\n\n" ++ "{context}" ++
        "\n\n---\n\nAnswer the question based on the above context: " ++ "{question}" ++
        "\n" := by
  rfl

/-! ## The claims -/

/-- C1: Ingestion is idempotent — when every assigned chunk id is already in
the store's id set, `add_to_chroma` performs no upsert and no persist call
and leaves the store unchanged; consequently a second run over the same
chunk batch (an unchanged source directory) adds zero new records. -/
theorem add_to_chroma_idempotent (db : ChromaDB) (chunks : List Document) :
    ((∀ c ∈ calculate_chunk_ids chunks, chunkIdOf c ∈ existingIds db) →
      add_to_chroma db chunks = ⟨db, [], false⟩) ∧
    add_to_chroma (add_to_chroma db chunks).db chunks =
      ⟨(add_to_chroma db chunks).db, [], false⟩ := by
  refine ⟨fun h => add_to_chroma_noop_of_all_present db chunks h, ?_⟩
  exact add_to_chroma_noop_of_all_present _ chunks (existingIds_add_to_chroma db chunks)

/-- C2: the deduplicator upserts exactly the chunks whose id is not among
the stored ids — it never re-submits a stored id, submits every chunk whose
id is absent, and preserves the batch order (the submitted list is a
sublist of the id-tagged batch). -/
theorem add_to_chroma_dedup_exact (db : ChromaDB) (chunks : List Document) :
    (∀ c ∈ (add_to_chroma db chunks).upserted, chunkIdOf c ∉ existingIds db) ∧
    (∀ c ∈ calculate_chunk_ids chunks,
      chunkIdOf c ∉ existingIds db → c ∈ (add_to_chroma db chunks).upserted) ∧
    (add_to_chroma db chunks).upserted.Sublist (calculate_chunk_ids chunks) := by
  refine ⟨?_, ?_, ?_⟩
  · intro c hc
    rw [add_to_chroma_upserted] at hc
    have h := (List.mem_filter.mp hc).2
    simpa using h
  · intro c hc hid
    rw [add_to_chroma_upserted]
    exact List.mem_filter.mpr ⟨hc, by simpa using hid⟩
  · rw [add_to_chroma_upserted]
    exact List.filter_sublist _

/-- C3: every id written by `calculate_chunk_ids` is the string
`"{source}:{page}:{index}"` built from the chunk's own source and page
metadata, and the assignment is deterministic: two batches with the same
page-key sequence receive the same id sequence. -/
theorem calculate_chunk_ids_format_deterministic (chunks : List Document) :
    (∀ c ∈ calculate_chunk_ids chunks, ∃ i : Nat,
      metaGet c.metadata "id" = some (pyStr (metaGet c.metadata "source") ++ ":" ++
        pyStr (metaGet c.metadata "page") ++ ":" ++ Nat.repr i)) ∧
    (∀ chunks2 : List Document, pageKeys chunks = pageKeys chunks2 →
      (calculate_chunk_ids chunks).map chunkIdOf =
        (calculate_chunk_ids chunks2).map chunkIdOf) := by
  constructor
  · intro c hc
    rw [calculate_chunk_ids_eq_zipWith] at hc
    obtain ⟨a, i, _, _, rfl⟩ := exists_of_mem_zipWith _ _ _ _ hc
    refine ⟨i, ?_⟩
    rw [show metaGet (withId a (fmtId (pageIdOf a) i)).metadata "id" =
        some (fmtId (pageIdOf a) i) from by simp [withId, metaGet_metaSet_self]]
    rw [metaGet_withId a _ "source" (by decide), metaGet_withId a _ "page" (by decide)]
    rfl
  · intro chunks2 hpk
    rw [calculate_chunk_ids_map_chunkIdOf, calculate_chunk_ids_map_chunkIdOf, hpk]

/-- C4: `calculate_chunk_ids` is the single left-to-right pass with O(1)
state described by the spec: it equals the zip of the input with the index
sequence `specIndices` (defined from the spec's words), whose first index
is 0 and whose index at each later position increments on a repeated page
key and resets to 0 on any page-key change — also when an earlier key
reappears after an interruption — each chunk receiving the id
`"{page_key}:{index}"` in its metadata. -/
theorem calculate_chunk_ids_single_pass (chunks : List Document) :
    calculate_chunk_ids chunks =
      List.zipWith (fun c i => withId c (fmtId (pageIdOf c) i)) chunks
        (specIndices (pageKeys chunks)) ∧
    (specIndices (pageKeys chunks)).length = chunks.length ∧
    (0 < chunks.length → (specIndices (pageKeys chunks)).getD 0 0 = 0) ∧
    (∀ i : Nat, i + 1 < chunks.length →
      (specIndices (pageKeys chunks)).getD (i + 1) 0 =
        if (pageKeys chunks).getD (i + 1) "" = (pageKeys chunks).getD i "" then
          (specIndices (pageKeys chunks)).getD i 0 + 1
        else 0) := by
  refine ⟨calculate_chunk_ids_eq_zipWith chunks, ?_, ?_, ?_⟩
  · rw [specIndices_length, pageKeys, List.length_map]
  · intro h
    exact specIndices_getD_zero _ (by simpa [pageKeys] using h)
  · intro i hi
    exact specIndicesAux_getD_succ (pageKeys chunks) none 0 i (by simpa [pageKeys] using hi)

/-- C5: on a page-grouped batch — the shape every batch produced by one
ingestion run has, since the splitter emits each page's chunks contiguously
(spec §4.2/§4.3) — the assigned chunk ids are pairwise distinct. -/
theorem calculate_chunk_ids_unique (chunks : List Document)
    (h : Grouped (pageKeys chunks)) :
    ((calculate_chunk_ids chunks).map chunkIdOf).Nodup := by
  rw [calculate_chunk_ids_map_chunkIdOf]
  exact ids_nodup_of_grouped _ h

/-- Witness for C5 at a concrete grouped batch: two chunks of page 0 and one
of page 1 of the same file. -/
theorem calculate_chunk_ids_unique_witness :
    ((calculate_chunk_ids
      [⟨"a", [("source", "books/doc.pdf"), ("page", "0")]⟩,
       ⟨"b", [("source", "books/doc.pdf"), ("page", "0")]⟩,
       ⟨"c", [("source", "books/doc.pdf"), ("page", "1")]⟩]).map chunkIdOf).Nodup :=
  calculate_chunk_ids_unique _ (by
    have h1 : Grouped [("books/doc.pdf:1" : String)] := by
      have := Grouped.block "books/doc.pdf:1" 0 [] (by simp) Grouped.nil
      simpa using this
    have h2 : Grouped ["books/doc.pdf:0", "books/doc.pdf:0", "books/doc.pdf:1"] := by
      have := Grouped.block "books/doc.pdf:0" 1 ["books/doc.pdf:1"] (by simp) h1
      simpa [List.replicate] using this
    exact h2)

/-- C6: on a page-grouped batch, the ids assigned to the chunks of any page
key `k` are exactly `k:0 .. k:(N-1)` in order, where `N` counts the chunks
whose page key is `k` — no gaps, no repeats. -/
theorem calculate_chunk_ids_page_range (chunks : List Document)
    (h : Grouped (pageKeys chunks)) (k : String) :
    ((calculate_chunk_ids chunks).filter (fun c => pageIdOf c == k)).map chunkIdOf =
      (List.range ((pageKeys chunks).count k)).map (fmtId k) := by
  rw [calculate_chunk_ids_eq_zipWith,
    filter_map_zipWith_lift k chunks (specIndices (pageKeys chunks))
      (by rw [specIndices_length, pageKeys, List.length_map]),
    show chunks.map pageIdOf = pageKeys chunks from rfl]
  exact zip_ids_filter_of_grouped (pageKeys chunks) h k

/-- Witness for C6 at the same concrete grouped batch, for the page key of
page 0: the two chunks of that page get ids `...:0` and `...:1`. -/
theorem calculate_chunk_ids_page_range_witness :
    ((calculate_chunk_ids
      [⟨"a", [("source", "books/doc.pdf"), ("page", "0")]⟩,
       ⟨"b", [("source", "books/doc.pdf"), ("page", "0")]⟩,
       ⟨"c", [("source", "books/doc.pdf"), ("page", "1")]⟩]).filter
        (fun c => pageIdOf c == "books/doc.pdf:0")).map chunkIdOf =
      (List.range ((pageKeys
        [⟨"a", [("source", "books/doc.pdf"), ("page", "0")]⟩,
         ⟨"b", [("source", "books/doc.pdf"), ("page", "0")]⟩,
         ⟨"c", [("source", "books/doc.pdf"), ("page", "1")]⟩]).count
          "books/doc.pdf:0")).map (fmtId "books/doc.pdf:0") :=
  calculate_chunk_ids_page_range _ (by
    have h1 : Grouped [("books/doc.pdf:1" : String)] := by
      have := Grouped.block "books/doc.pdf:1" 0 [] (by simp) Grouped.nil
      simpa using this
    have h2 : Grouped ["books/doc.pdf:0", "books/doc.pdf:0", "books/doc.pdf:1"] := by
      have := Grouped.block "books/doc.pdf:0" 1 ["books/doc.pdf:1"] (by simp) h1
      simpa [List.replicate] using this
    exact h2) "books/doc.pdf:0"

/-- Counterexample to C7 as stated: a directory whose listing is the single
non-ingestible file `notes.txt` — so it "contains no ingestible files" —
does not make the loader fail with `EmptyInputError` (`ValueError`); the
guard only checks that the listing is non-empty, and the call returns
`ok` with whatever the external PDF loader yields (here no documents). -/
theorem load_documents_no_ingestible_counterexample :
    (∀ f ∈ ["notes.txt"], isIngestible f = false) ∧
    load_documents_from_directory
      (fun p => if p = "books" then some ["notes.txt"] else none)
      (fun _ => ([] : List Document)) "books" = .ok [] := by
  constructor
  · decide
  · rfl

/-- C7 (amended): the loader fails with `FileNotFoundError` exactly when the
path does not exist, fails with `ValueError` (the spec's `EmptyInputError`)
exactly when the directory listing is empty — not merely free of ingestible
files — and otherwise returns the external loader's documents; no documents
are produced in either failure case. -/
theorem load_documents_contract (listdir : String → Option (List String))
    (loadPdfDir : String → List Document) (directory_path : String) :
    (listdir directory_path = none →
      load_documents_from_directory listdir loadPdfDir directory_path =
        .error (.FileNotFoundError ("Directory " ++ directory_path ++ " does not exist"))) ∧
    (∀ entries, listdir directory_path = some entries → entries = [] →
      load_documents_from_directory listdir loadPdfDir directory_path =
        .error (.ValueError ("Directory " ++ directory_path ++ " is empty"))) ∧
    (∀ entries, listdir directory_path = some entries → entries ≠ [] →
      load_documents_from_directory listdir loadPdfDir directory_path =
        .ok (loadPdfDir directory_path)) := by
  refine ⟨?_, ?_, ?_⟩
  · intro h
    simp [load_documents_from_directory, h]
  · intro entries h he
    subst he
    simp [load_documents_from_directory, h]
  · intro entries h he
    simp [load_documents_from_directory, h, he]

/-- C8: the splitter guard fails with `ValueError` (the spec's
`EmptyInputError`) exactly when the document list is empty, and on any
non-empty list returns the external splitter's chunks without that error. -/
theorem split_documents_empty_iff (splitter : Nat → Nat → List Document → List Document)
    (documents : List Document) (chunk_size chunk_overlap : Nat) :
    ((∃ msg, split_documents splitter documents chunk_size chunk_overlap =
        .error (.ValueError msg)) ↔ documents = []) ∧
    (documents ≠ [] → split_documents splitter documents chunk_size chunk_overlap =
        .ok (splitter chunk_size chunk_overlap documents)) := by
  constructor
  · constructor
    · rintro ⟨msg, hm⟩
      by_contra hne
      simp [split_documents, hne] at hm
    · rintro rfl
      exact ⟨"No documents to split", rfl⟩
  · intro h
    simp [split_documents, h]

/-- C9: `query_rag` joins the retrieved chunk texts in ranked order with the
fixed delimiter, substitutes that concatenation and the original query into
the two slots of the fixed template `PROMPT_TEMPLATE`, and prints
`Response: <generated text>` then `Sources: <list>`, the list holding each
retrieved chunk's id — `None` when a chunk has no id — in the same ranked
order. -/
theorem query_rag_output {α : Type} (generate : String → String)
    (search : String → List (Document × α)) (query_text : String) :
    (query_rag generate search query_text).printed =
      "Response: " ++
        generate (formatPrompt (String.intercalate "\n\n---\n\n"
          ((search query_text).map (fun r => r.1.page_content))) query_text) ++
        "\n" ++ "Sources: " ++
        pyListRepr ((search query_text).map (fun r => metaGet r.1.metadata "id")) ∧
    (query_rag generate search query_text).response =
      generate (formatPrompt (String.intercalate "\n\n---\n\n"
        ((search query_text).map (fun r => r.1.page_content))) query_text) ∧
    formatPrompt (String.intercalate "\n\n---\n\n"
        ((search query_text).map (fun r => r.1.page_content))) query_text =
      "\nAnswer the question based only on the following context:\n\n" ++
        String.intercalate "\n\n---\n\n"
          ((search query_text).map (fun r => r.1.page_content)) ++
        "\n\n---\n\nAnswer the question based on the above context: " ++
        query_text ++ "\n" ∧
    PROMPT_TEMPLATE =
      "\nAnswer the question based only on the following context:\n\n" ++ "{context}" ++
        "\n\n---\n\nAnswer the question based on the above context: " ++ "{question}" ++
        "\n" := by
  refine ⟨?_, ?_, ?_, ?_⟩
  · rfl
  · rfl
  · rfl
  · exact PROMPT_TEMPLATE_segments

/-- C10: `calculate_chunk_ids` returns the chunks it was given in the same
order and number, and touches only the metadata key `"id"`: every chunk's
text and every other metadata key are unchanged. -/
theorem calculate_chunk_ids_frame (chunks : List Document) :
    (calculate_chunk_ids chunks).length = chunks.length ∧
    (∀ i : Nat, i < chunks.length →
      ((calculate_chunk_ids chunks).getD i ⟨"", []⟩).page_content =
        (chunks.getD i ⟨"", []⟩).page_content ∧
      (∀ key : String, key ≠ "id" →
        metaGet ((calculate_chunk_ids chunks).getD i ⟨"", []⟩).metadata key =
          metaGet (chunks.getD i ⟨"", []⟩).metadata key)) := by
  have hlen2 : chunks.length = (specIndices (pageKeys chunks)).length := by
    rw [specIndices_length, pageKeys, List.length_map]
  constructor
  · rw [calculate_chunk_ids_eq_zipWith, List.length_zipWith, ← hlen2, Nat.min_self]
  · intro i hi
    have hgetd : (calculate_chunk_ids chunks).getD i ⟨"", []⟩ =
        withId (chunks.getD i ⟨"", []⟩)
          (fmtId (pageIdOf (chunks.getD i ⟨"", []⟩))
            ((specIndices (pageKeys chunks)).getD i 0)) := by
      rw [calculate_chunk_ids_eq_zipWith]
      exact zipWith_getD (fun c i => withId c (fmtId (pageIdOf c) i))
        (⟨"", []⟩ : Document) 0 (⟨"", []⟩ : Document) chunks
        (specIndices (pageKeys chunks)) i hi hlen2
    rw [hgetd]
    exact ⟨pageContent_withId _ _, fun key hkey => metaGet_withId _ _ _ hkey⟩

end RagLP
